import Mathlib

/-!
Verification of the fez-route optimization core against its specification.

The Rust sources are shallowly embedded: `f64` values become `ℚ` (the claims
under scrutiny only involve exact comparisons and sums, never rounding),
`i32` becomes `ℤ`, dense petgraph graphs become lists indexed by position,
and the GLPK wrapper types (`Var`, `Expr`, `Bounds`, `Term`, `VarRefs`)
become the corresponding Lean structures.  Each definition mirrors one
function of `fez-route/src/opt.rs`, `fez-route/src/common.rs` or
`glpk/src/lib.rs`; external library routines (petgraph DFS, GLPK itself)
are modelled by their documented behaviour where noted.
-/

namespace FezRoute

/-- Numeric epsilon, `const EPS: f64 = 1e-6` in `opt.rs`. -/
def EPS : ℚ := 1 / 1000000

/-- `rooms::Cost` as consumed by `opt.rs`. -/
inductive Cost where
  | free
  | lock
  | water
  | secret
  | oneof
deriving DecidableEq, Repr

/-- `rooms::Distance`, the geometric displacement carried by an edge. -/
structure Distance where
  dx : ℚ
  dy : ℚ
  dz : ℚ
deriving DecidableEq, Repr

/-- The node record used by `opt.rs` (name, resource yields, cost tag, dwell time). -/
structure Node where
  name : String
  bits : ℤ
  keys : ℤ
  cost : Option Cost
  time : ℚ
deriving DecidableEq, Repr

/-- The edge record used by `opt.rs`: a displacement from which time is derived. -/
structure Edge where
  time : Distance
deriving DecidableEq, Repr

/-- `Edge::get_frames` in `opt.rs`. -/
def Edge.get_frames (e : Edge) : ℚ :=
  let dist := e.time
  let xz_frames := min dist.dx dist.dz * 6
  let y_frames := dist.dy * 6
  max xz_frames y_frames

/-- `Node.keys_minus_lock` in `opt.rs`. -/
def Node.keys_minus_lock (n : Node) : ℤ :=
  n.keys + (match n.cost with
    | some Cost.lock => -1
    | _ => 0)

/-! ## GLPK wrapper model (`glpk/src/lib.rs`) -/

/-- `glpk::VarRef`: a 1-based GLPK column index. -/
abbrev VarRef := ℕ

/-- `glpk::VarRefs`, a contiguous block of variable references. -/
structure VarRefs where
  first : ℕ
  len : ℕ
deriving DecidableEq, Repr

/-- `VarRefs::get`. -/
def VarRefs.get (v : VarRefs) (index : ℕ) : VarRef := v.first + index

/-- `glpk::Term`: one variable together with its coefficient. -/
structure Term where
  var : VarRef
  coef : ℚ
deriving DecidableEq, Repr

/-- `glpk::Bounds`. -/
inductive Bounds where
  | free
  | lower (l : ℚ)
  | upper (u : ℚ)
  | double (l u : ℚ)
  | fixed (v : ℚ)
deriving DecidableEq, Repr

/-- `glpk::Kind`. -/
inductive Kind where
  | float
  | int
deriving DecidableEq, Repr

/-- `glpk::Var`: a variable specification. -/
structure Var where
  name : String
  kind : Kind
  bounds : Bounds
  objective : ℚ
deriving DecidableEq, Repr

/-- `glpk::Expr`: a named linear constraint. -/
structure Expr where
  name : String
  bounds : Bounds
  terms : List Term
deriving DecidableEq, Repr

/-- `glpk::Branch`. -/
inductive Branch where
  | up
  | down
  | auto
deriving DecidableEq, Repr

/-- Whether a scalar value satisfies a `Bounds`. -/
def Bounds.check (b : Bounds) (v : ℚ) : Bool :=
  match b with
  | .free => true
  | .lower l => decide (l ≤ v)
  | .upper u => decide (v ≤ u)
  | .double l u => decide (l ≤ v) && decide (v ≤ u)
  | .fixed c => decide (v = c)

/-- Value of a term under an assignment of the decision variables. -/
def Term.eval (x : VarRef → ℚ) (t : Term) : ℚ := t.coef * x t.var

/-- Left-hand side of a constraint under an assignment. -/
def Expr.lhs (x : VarRef → ℚ) (e : Expr) : ℚ := (e.terms.map (Term.eval x)).sum

/-- Whether an assignment satisfies a constraint. -/
def Expr.sat (x : VarRef → ℚ) (e : Expr) : Bool := e.bounds.check (e.lhs x)

/-- Whether an assignment satisfies every constraint of a list: the feasible
region of a constraint list is the set of assignments on which this is true. -/
def satisfiesAll (x : VarRef → ℚ) (es : List Expr) : Bool := es.all (Expr.sat x)

/-! ## GLPK `glp_intopt` return-code mapping (`Prob::optimize_mip`) -/

/-- `glpk::Error`, the typed solve failure outcomes. -/
inductive GlpError where
  | invalidBounds
  | noInitSolution
  | notPrimalFeasible
  | notDualFeasible
  | solverFailed
  | hitMipGapLimit
  | timeout
  | stopped
  | unknown
deriving DecidableEq, Repr

/-- GLPK 4.65 header constant `GLP_EBOUND`. -/
def GLP_EBOUND : ℕ := 0x04
/-- GLPK 4.65 header constant `GLP_EROOT`. -/
def GLP_EROOT : ℕ := 0x0C
/-- GLPK 4.65 header constant `GLP_ENOPFS`. -/
def GLP_ENOPFS : ℕ := 0x0A
/-- GLPK 4.65 header constant `GLP_ENODFS`. -/
def GLP_ENODFS : ℕ := 0x0B
/-- GLPK 4.65 header constant `GLP_EFAIL`. -/
def GLP_EFAIL : ℕ := 0x05
/-- GLPK 4.65 header constant `GLP_EMIPGAP`. -/
def GLP_EMIPGAP : ℕ := 0x0E
/-- GLPK 4.65 header constant `GLP_ETMLIM`. -/
def GLP_ETMLIM : ℕ := 0x09
/-- GLPK 4.65 header constant `GLP_ESTOP`. -/
def GLP_ESTOP : ℕ := 0x0D

/-- The cast `err as c_uint` applied to the `c_int` returned by
`glp_intopt`: reduction modulo `2 ^ 32`. -/
def c_uint_cast (err : ℤ) : ℕ := (err % (2 ^ 32 : ℤ)).toNat

/-- The result match of `Prob::optimize_mip` in `glpk/src/lib.rs`: the raw
`c_int` returned by `glp_intopt` is cast to `c_uint` (`err as c_uint`) and
matched; zero is success, every listed error constant maps to its typed
error and anything else to `Error::Unknown`. -/
def optimize_mip_result (err : ℤ) : Except GlpError Unit :=
  if c_uint_cast err = 0 then .ok ()
  else if c_uint_cast err = GLP_EBOUND then .error .invalidBounds
  else if c_uint_cast err = GLP_EROOT then .error .noInitSolution
  else if c_uint_cast err = GLP_ENOPFS then .error .notPrimalFeasible
  else if c_uint_cast err = GLP_ENODFS then .error .notDualFeasible
  else if c_uint_cast err = GLP_EFAIL then .error .solverFailed
  else if c_uint_cast err = GLP_EMIPGAP then .error .hitMipGapLimit
  else if c_uint_cast err = GLP_ETMLIM then .error .timeout
  else if c_uint_cast err = GLP_ESTOP then .error .stopped
  else .error .unknown

/-! ## Graph model

`opt.rs` works over a `petgraph::StableGraph<Node, Edge>` whose node and
edge indices are dense (validated at the start of `optimize`).  A dense
graph is embedded as two lists: position in the list is the petgraph
index. -/

/-- A dense directed graph: node index and edge index are list positions;
an edge entry is `(source, target, weight)`. -/
structure OGraph where
  nodes : List Node
  edges : List (ℕ × ℕ × Edge)
deriving DecidableEq, Repr

/-- A value-graph (`StableGraph<&Node, f64>` produced by `value_graph`):
same node set as the original graph; the edge slot of each original edge
id holds its endpoints and, when the edge is retained, its value. -/
structure VGraph where
  nodes : List Node
  edges : List (ℕ × ℕ × Option ℚ)
deriving DecidableEq, Repr

/-- A petgraph `EdgeReference`: edge id, endpoints and weight. -/
structure ERef (E : Type) where
  id : ℕ
  source : ℕ
  target : ℕ
  weight : E
deriving DecidableEq, Repr

/-- All edge references of a dense graph (`graph.edge_references()`). -/
def OGraph.edgeRefs (g : OGraph) : List (ERef Edge) :=
  g.edges.enum.map (fun p => ⟨p.1, p.2.1, p.2.2.1, p.2.2.2⟩)

/-- `graph.edges_directed(n, Outgoing)` on a dense graph. -/
def OGraph.edgesOut (g : OGraph) (n : ℕ) : List (ERef Edge) :=
  g.edgeRefs.filter (fun e => e.source = n)

/-- `graph.edges_directed(n, Incoming)` on a dense graph. -/
def OGraph.edgesIn (g : OGraph) (n : ℕ) : List (ERef Edge) :=
  g.edgeRefs.filter (fun e => e.target = n)

/-- The edge references present in a value-graph (absent edges are skipped,
mirroring a `StableGraph` with deleted edges). -/
def VGraph.edgeRefs (g : VGraph) : List (ERef ℚ) :=
  g.edges.enum.filterMap (fun p =>
    p.2.2.2.map (fun w => ⟨p.1, p.2.1, p.2.2.1, w⟩))

/-- `values.edges(n)`: present outgoing edges of a node in a value-graph. -/
def VGraph.edgesOut (g : VGraph) (n : ℕ) : List (ERef ℚ) :=
  g.edgeRefs.filter (fun e => e.source = n)

/-- Successors of a node in a value-graph (`neighbors`). -/
def VGraph.adj (g : VGraph) (n : ℕ) : List ℕ :=
  (g.edgesOut n).map (fun e => e.target)

/-- `values[n].bits`: bit yield of a node of a value-graph. -/
def VGraph.nodeBits (g : VGraph) (n : ℕ) : ℤ :=
  ((g.nodes.get? n).map Node.bits).getD 0

/-! ## Problem encoder (`opt.rs`) -/

/-- `flow_exprs` in `opt.rs`: one constraint per node, fixed to `1` at the
first node, `-1` at the last node and `0` elsewhere, whose terms are the
incoming edge variables with coefficient `-1` chained with the outgoing
edge variables with coefficient `1`. -/
def flow_exprs (g : OGraph) (edges : VarRefs) (first_node last_node : ℕ) :
    List Expr :=
  g.nodes.enum.map (fun p =>
    { name := p.2.name ++ "/flow"
      bounds := .fixed (if p.1 = first_node then 1
        else if p.1 = last_node then -1 else 0)
      terms :=
        (g.edgesIn p.1).map (fun e => ⟨edges.get e.id, -1⟩)
          ++ (g.edgesOut p.1).map (fun e => ⟨edges.get e.id, 1⟩) })

/-- `capacity_exprs` in `opt.rs`: for every node other than the first and
last, the sum of its incoming edge variables is bounded above by `1`. -/
def capacity_exprs (g : OGraph) (edges : VarRefs) (first_node last_node : ℕ) :
    List Expr :=
  (g.nodes.enum.filter
      (fun p => decide (p.1 ≠ first_node) && decide (p.1 ≠ last_node))).map
    (fun p =>
      { name := p.2.name ++ "/capacity"
        bounds := .upper 1
        terms := (g.edgesIn p.1).map (fun e => ⟨edges.get e.id, 1⟩) })

/-- Sum of the current values of the incoming edge variables of a node. -/
def inSum (g : OGraph) (edges : VarRefs) (x : VarRef → ℚ) (n : ℕ) : ℚ :=
  ((g.edgesIn n).map (fun e => x (edges.get e.id))).sum

/-- Sum of the current values of the outgoing edge variables of a node. -/
def outSum (g : OGraph) (edges : VarRefs) (x : VarRef → ℚ) (n : ℕ) : ℚ :=
  ((g.edgesOut n).map (fun e => x (edges.get e.id))).sum

/-! ## Value-graph snapshot (`value_graph` in `opt.rs`) -/

/-- `value_graph` in `opt.rs`: `graph.filter_map` keeping every node and
keeping an edge exactly when the solver's current value for its variable
(`problem.get_value(edges.get(i.index()))`, modelled by the assignment
`vals`) is strictly greater than `EPS`, the kept edge carrying that value
as its weight.  `StableGraph::filter_map` preserves indices, so the edge
slot keeps its id and endpoints. -/
def value_graph (g : OGraph) (vals : VarRef → ℚ) (edges : VarRefs) : VGraph :=
  { nodes := g.nodes
    edges := g.edges.enum.map (fun p =>
      let value := vals (edges.get p.1)
      (p.2.1, p.2.2.1, if value > EPS then some value else none)) }

/-- Endpoints of a present edge of a value-graph
(`filtered.edge_endpoints(id)`). -/
def VGraph.endpoints (g : VGraph) (i : ℕ) : Option (ℕ × ℕ) :=
  (g.edges.get? i).bind (fun p => p.2.2.map (fun _ => (p.1, p.2.1)))

/-- The endpoint-consistency pass at the end of `value_graph`: for every
original edge whose id is still present in the snapshot, its endpoints
must be unchanged (the Rust code panics otherwise). -/
def value_graph_check (g : OGraph) (vg : VGraph) : Bool :=
  g.edgeRefs.all (fun e =>
    match vg.endpoints e.id with
    | some p => decide (p.1 = e.source) && decide (p.2 = e.target)
    | none => true)

/-! ## Lazy cut generator (`get_connected_nodes`, `lazy_required_bits_expr`) -/

/-- One expansion step of the reachable set: keep the set and add every
successor of a member. -/
def reachStep (g : VGraph) (s : List ℕ) : List ℕ :=
  (s ++ s.flatMap g.adj).dedup

/-- Modelled from petgraph: `Dfs::new(&values, first)` iterated to
exhaustion discovers exactly the nodes reachable from `first` along
present edges; the discovered set is computed here as an iterated
expansion (`g.nodes.length` steps reach the closure on any graph whose
edges stay inside the node range). -/
def reachableFrom (g : VGraph) (first : ℕ) : List ℕ :=
  (reachStep g)^[g.nodes.length] [first]

/-- `get_connected_nodes` in `opt.rs`: run the DFS from the first node and
sum `values[n].bits` over every discovered node; the discovered
`FixedBitSet` is represented canonically as the ascending list of
discovered node ids (the order `FixedBitSet::ones` yields them). -/
def get_connected_nodes (values : VGraph) (first_node : ℕ) : List ℕ × ℤ :=
  let reached := reachableFrom values first_node
  let discovered := (List.range values.nodes.length).filter
    (fun n => decide (n ∈ reached))
  (discovered, (discovered.map values.nodeBits).sum)

/-- The cut name `format!("cut.{:?}", connected_nodes)`: a rendering of the
discovered node set (injective in the set, which is all the claims use). -/
def cutName (conn : List ℕ) : String := "cut." ++ toString conn

/-- `lazy_required_bits_expr` in `opt.rs`: if the bits reachable in the
snapshot fall short of `required_bits`, emit a constraint, named by the
discovered node set, forcing at least one original-graph edge from the
discovered set into its complement to be selected. -/
def lazy_required_bits_expr (g : OGraph) (edges : VarRefs) (first_node : ℕ)
    (required_bits : ℤ) (values : VGraph) : Option Expr :=
  let cn := get_connected_nodes values first_node
  if cn.2 < required_bits then
    some
      { name := cutName cn.1
        bounds := .lower 1
        terms := cn.1.flatMap (fun n =>
          ((g.edgesOut n).filter (fun e => !decide (e.target ∈ cn.1))).map
            (fun e => ⟨edges.get e.id, 1⟩)) }
  else
    none

/-! ## Heuristic path (`common.rs`) -/

/-- `common::State`: the dynamic-programming state of one node — the chosen
outgoing edge, the bits accumulated from here to the goal along the chosen
chain, and the accumulated weight (the sum of the chain's edge values). -/
structure HState where
  edge : Option (ERef ℚ)
  bits : ℤ
  weight : ℚ
deriving DecidableEq, Repr

/-- `State::default()`. -/
def HState.default : HState := ⟨none, 0, 0⟩

/-- The `HashMap<NodeIndex, State>` of `heuristic_path`, as an association
list whose most recent insertion is at the front. -/
abbrev StateMap := List (ℕ × HState)

/-- `states.get(&n)`. -/
def lookupState (sts : StateMap) (n : ℕ) : Option HState :=
  (sts.find? (fun p => p.1 = n)).map (fun p => p.2)

/-- The candidate states of a node: one per outgoing edge whose target
already has a computed state (`filter_map` body of `heuristic_path`). -/
def candidates (values : VGraph) (sts : StateMap) (n : ℕ) : List HState :=
  let last_bits := values.nodeBits n
  (values.edgesOut n).filterMap (fun e =>
    (lookupState sts e.target).map (fun next =>
      { edge := some e
        bits := last_bits + next.bits
        weight := e.weight + next.weight }))

/-- Rust's `Ordering::is_gt`-based fold of `Iterator::max_by` applied to
the comparator `l.bits.cmp(&r.bits).then(l.weight.partial_cmp(&r.weight))`:
the accumulator is replaced whenever it does not compare greater than the
next element, so the last maximal element wins. -/
def maxByState : List HState → Option HState
  | [] => none
  | x :: xs =>
    some (xs.foldl
      (fun acc y =>
        if acc.bits < y.bits ∨ (acc.bits = y.bits ∧ acc.weight ≤ y.weight)
        then y else acc)
      x)

/-- One step of the `for_each` body of `heuristic_path`: insert the best
candidate state of the node, if any. -/
def processNode (values : VGraph) (sts : StateMap) (n : ℕ) : StateMap :=
  match maxByState (candidates values sts n) with
  | some s => (n, s) :: sts
  | none => sts

/-- Modelled from petgraph: `DfsPostOrder::new(&values, first).iter(..)`
emits the nodes of the depth-first forest rooted at `first` in post-order
(every child before its parent, each reachable node exactly once).  The
fuel bounds the recursion depth; `nodes + edges + 1` exceeds the length of
any simple traversal. -/
def postOrderAux (values : VGraph) :
    ℕ → List ℕ → ℕ → List ℕ × List ℕ
  | 0, visited, _ => (visited, [])
  | fuel + 1, visited, n =>
    if n ∈ visited then (visited, [])
    else
      let r := (values.adj n).foldl
        (fun acc t =>
          let s := postOrderAux values fuel acc.1 t
          (s.1, acc.2 ++ s.2))
        (n :: visited, [])
      (r.1, r.2 ++ [n])

/-- The DFS post-order of the nodes reachable from `first`. -/
def postOrder (values : VGraph) (first : ℕ) : List ℕ :=
  (postOrderAux values (values.nodes.length + values.edges.length + 1)
    [] first).2

/-- `heuristic_path` in `common.rs`: pre-insert the default state at the
last node, then walk the value-graph in DFS post-order from the first
node, storing for each node the `max_by` best state among the outgoing
edges whose target already has a state. -/
def heuristic_path (values : VGraph) (first last : ℕ) : StateMap :=
  (postOrder values first).foldl (processNode values) [(last, HState.default)]

/-- One step of `HeuristicPathIter::next`: the chosen edge stored at the
current node, if the node has a state with an edge. -/
def nextEdge (sts : StateMap) (n : ℕ) : Option (ERef ℚ) :=
  match lookupState sts n with
  | some st => st.edge
  | none => none

/-- The edges yielded by `HeuristicPathIter` starting at a node, cut off
by fuel (the iterator itself is unbounded; the development proves the
chain stops within `sts.length` steps whenever the goal node of the
snapshot has no outgoing edges). -/
def chainEdges (sts : StateMap) : ℕ → ℕ → List (ERef ℚ)
  | 0, _ => []
  | fuel + 1, n =>
    match nextEdge sts n with
    | some e => e :: chainEdges sts fuel e.target
    | none => []

/-- The nodes visited by `HeuristicPathIter` starting at a node. -/
def chainNodes (sts : StateMap) : ℕ → ℕ → List ℕ
  | 0, n => [n]
  | fuel + 1, n =>
    match nextEdge sts n with
    | some e => n :: chainNodes sts fuel e.target
    | none => [n]

/-- Rust `Iterator::min_by` on `(edge id, score)` pairs compared by score:
the accumulator is kept unless the next element is strictly smaller, so
the first minimal element wins. -/
def minByScore : List (ℕ × ℚ) → Option (ℕ × ℚ)
  | [] => none
  | x :: xs =>
    some (xs.foldl (fun acc y => if acc.2 ≤ y.2 then acc else y) x)

/-- `Closure::get_branch` in `opt.rs`: walk the heuristic path from the
first node, keep the edges whose value is not yet pinned at `1`
(`1.0 - value > EPS`), score each by its distance from `0.5`, and return
the variable of the minimum-score edge to branch up; `None` when no edge
qualifies. -/
def get_branch (values : VGraph) (edges : VarRefs) (first_node last_node : ℕ) :
    Option (VarRef × Branch) :=
  let sts := heuristic_path values first_node last_node
  let scored := ((chainEdges sts (sts.length + 1) first_node).filter
      (fun e => decide (1 - e.weight > EPS))).map
    (fun e => (e.id, |e.weight - 1/2|))
  (minByScore scored).map (fun p => (edges.get p.1, Branch.up))

/-! ## Validation prologue of `optimize` (`opt.rs`) -/

/-- A possibly non-dense `StableGraph`: `node_indices()` yields the stored
node ids in ascending order and `edge_indices()` the stored edge ids; an
edge entry is `(id, source, target, weight)`. -/
structure SGraph where
  nodes : List (ℕ × Node)
  edges : List (ℕ × ℕ × ℕ × Edge)
deriving DecidableEq, Repr

/-- The node-density check of `optimize`: `node_indices().enumerate()`
panics on any position whose id differs from it.  `true` means no panic. -/
def nodesDenseOk (g : SGraph) : Bool :=
  (g.nodes.enum.filter (fun p => decide (p.1 ≠ p.2.1))).isEmpty

/-- The edge-density check of `optimize`. `true` means no panic. -/
def edgesDenseOk (g : SGraph) : Bool :=
  (g.edges.enum.filter (fun p => decide (p.1 ≠ p.2.1))).isEmpty

/-- `graph.externals(Incoming)`: the ids of the nodes no edge points to. -/
def externalsIncoming (g : SGraph) : List ℕ :=
  (g.nodes.map (fun p => p.1)).filter
    (fun n => g.edges.all (fun e => decide (e.2.2.1 ≠ n)))

/-- `graph.externals(Outgoing)`: the ids of the nodes no edge leaves. -/
def externalsOutgoing (g : SGraph) : List ℕ :=
  (g.nodes.map (fun p => p.1)).filter
    (fun n => g.edges.all (fun e => decide (e.2.1 ≠ n)))

/-- itertools `exactly_one`: succeeds exactly on a one-element iterator. -/
def exactlyOne {α : Type} : List α → Option α
  | [x] => some x
  | _ => none

/-- The validation prologue of `optimize` in `opt.rs`: the run survives
(`true`) exactly when both density checks pass and
`externals(Incoming)`/`externals(Outgoing)` each hold exactly one node;
otherwise one of the four `panic!`/`expect` calls fires. -/
def validate_prologue (g : SGraph) : Bool :=
  nodesDenseOk g && edgesDenseOk g
    && (exactlyOne (externalsIncoming g)).isSome
    && (exactlyOne (externalsOutgoing g)).isSome

/-! ## Theorems -/

section Helpers

/-- An enumerate-and-compare pass detects exactly the non-dense id lists:
no mismatch survives the filter iff the stored ids are `k, k+1, ...`. -/
theorem dense_enum_iff {β : Type} (l : List (ℕ × β)) (k : ℕ) :
    ((List.enumFrom k l).filter (fun p => decide (p.1 ≠ p.2.1))).isEmpty = true
      ↔ l.map (fun p => p.1) = List.range' k l.length := by
  induction l generalizing k with
  | nil => simp
  | cons a t ih =>
    rw [List.enumFrom_cons, List.filter_cons]
    by_cases h : k = a.1
    · have hd : decide ((k, a).1 ≠ (k, a).2.1) = false := by simp [h]
      rw [hd]
      simp only [List.length_cons, List.map_cons, List.range'_succ]
      rw [if_neg (by simp)]
      rw [ih (k + 1)]
      constructor
      · intro ht
        rw [ht, ← h]
      · intro ht
        have h1 : List.map (fun p => p.1) t = List.range' (k + 1) t.length 1 :=
          (List.cons.injEq _ _ _ _ ▸ ht).2
        rw [h1, h]
    · have hd : decide ((k, a).1 ≠ (k, a).2.1) = true := by simp [h]
      rw [if_pos hd]
      simp only [List.isEmpty_cons, List.length_cons, List.map_cons,
        List.range'_succ]
      constructor
      · intro hfalse
        cases hfalse
      · intro ht
        exfalso
        exact h ((List.cons.injEq _ _ _ _ ▸ ht).1).symm

/-- itertools `exactly_one` succeeds exactly on one-element lists. -/
theorem exactlyOne_isSome_iff {α : Type} (l : List α) :
    (exactlyOne l).isSome = true ↔ l.length = 1 := by
  match l with
  | [] => simp [exactlyOne]
  | [a] => simp [exactlyOne]
  | a :: b :: t => simp [exactlyOne]

/-- Over a duplicate-free list, the filtered list is a singleton iff there
is a unique member satisfying the predicate. -/
theorem nodup_filter_length_one {α : Type} (l : List α) (p : α → Bool)
    (hl : l.Nodup) :
    (l.filter p).length = 1 ↔ ∃! x, x ∈ l ∧ p x = true := by
  constructor
  · intro h
    obtain ⟨a, ha⟩ := List.length_eq_one.mp h
    have hmem : a ∈ l.filter p := by
      rw [ha]
      exact List.mem_singleton_self a
    refine ⟨a, ⟨(List.mem_filter.mp hmem).1, (List.mem_filter.mp hmem).2⟩, ?_⟩
    intro y hy
    have : y ∈ l.filter p := List.mem_filter.mpr ⟨hy.1, hy.2⟩
    rw [ha] at this
    exact List.mem_singleton.mp this
  · rintro ⟨x, hx, huniq⟩
    have hxf : x ∈ l.filter p := List.mem_filter.mpr ⟨hx.1, hx.2⟩
    have hall : ∀ y ∈ l.filter p, y = x := by
      intro y hy
      exact huniq y ⟨(List.mem_filter.mp hy).1, (List.mem_filter.mp hy).2⟩
    have hnd : (l.filter p).Nodup := hl.filter p
    cases hf : l.filter p with
    | nil =>
      rw [hf] at hxf
      cases hxf
    | cons a t =>
      cases t with
      | nil => rfl
      | cons b t2 =>
        exfalso
        rw [hf] at hall hnd
        have ha : a = x := hall a (by simp)
        have hb : b = x := hall b (by simp)
        rw [List.nodup_cons] at hnd
        exact hnd.1 (by simp [ha, hb])

end Helpers

set_option maxHeartbeats 1600000 in
/-- **C7.** `optimize_mip` returns `Ok(())` exactly when `glp_intopt`
returns `0`; each documented nonzero return code is mapped to its typed
error (`InvalidBounds`, `NoInitSolution`, `NotPrimalFeasible`,
`NotDualFeasible`, `SolverFailed`, `HitMipGapLimit`, `Timeout`,
`Stopped`), and any unrecognized code yields `Error::Unknown` — never a
success result.  The return code ranges over `c_int`. -/
theorem C7_optimize_mip_result_mapping :
    (∀ err : ℤ, -(2 ^ 31) ≤ err → err < 2 ^ 31 →
      (optimize_mip_result err = .ok () ↔ err = 0)) ∧
    optimize_mip_result 4 = .error .invalidBounds ∧
    optimize_mip_result 12 = .error .noInitSolution ∧
    optimize_mip_result 10 = .error .notPrimalFeasible ∧
    optimize_mip_result 11 = .error .notDualFeasible ∧
    optimize_mip_result 5 = .error .solverFailed ∧
    optimize_mip_result 14 = .error .hitMipGapLimit ∧
    optimize_mip_result 9 = .error .timeout ∧
    optimize_mip_result 13 = .error .stopped ∧
    (∀ err : ℤ, 0 ≤ err → err < 2 ^ 31 →
      err ∉ ([0, 4, 12, 10, 11, 5, 14, 9, 13] : List ℤ) →
      optimize_mip_result err = .error .unknown) := by
  have hok : ∀ err : ℤ, -(2 ^ 31) ≤ err → err < 2 ^ 31 →
      (optimize_mip_result err = .ok () ↔ err = 0) := by
    intro err h1 h2
    have key : optimize_mip_result err = .ok () ↔ c_uint_cast err = 0 := by
      simp only [optimize_mip_result]
      split_ifs <;> simp_all
    rw [key]
    simp only [c_uint_cast]
    omega
  have hunk : ∀ err : ℤ, 0 ≤ err → err < 2 ^ 31 →
      err ∉ ([0, 4, 12, 10, 11, 5, 14, 9, 13] : List ℤ) →
      optimize_mip_result err = .error .unknown := by
    intro err h0 h2 hmem
    simp only [List.mem_cons, List.not_mem_nil, or_false, not_or] at hmem
    obtain ⟨m0, m4, m12, m10, m11, m5, m14, m9, m13⟩ := hmem
    have hcast : c_uint_cast err = err.toNat := by
      simp only [c_uint_cast]
      omega
    simp only [optimize_mip_result, hcast, GLP_EBOUND, GLP_EROOT, GLP_ENOPFS,
      GLP_ENODFS, GLP_EFAIL, GLP_EMIPGAP, GLP_ETMLIM, GLP_ESTOP]
    split_ifs with ha hb hc hd he hf hg hh hi
    all_goals first
      | rfl
      | (exfalso; omega)
  exact ⟨hok, by rfl, by rfl, by rfl, by rfl, by rfl, by rfl, by rfl,
    by rfl, hunk⟩

/-- Witness for C7: the hypotheses are satisfiable — code `0` is success
and the unlisted code `7` (GLPK's `GLP_EOBJUL`) maps to `Unknown`. -/
theorem C7_optimize_mip_result_mapping_witness :
    optimize_mip_result 0 = .ok () ∧ optimize_mip_result 7 = .error .unknown :=
  ⟨(C7_optimize_mip_result_mapping.1 0 (by norm_num) (by norm_num)).mpr rfl,
    C7_optimize_mip_result_mapping.2.2.2.2.2.2.2.2.2 7 (by norm_num)
      (by norm_num) (by decide)⟩

/-- **C6.** The validation prologue of `optimize(graph, required_bits)`
survives (no `panic!`, no failed `expect`) exactly when the graph's node
and edge identifiers are densely packed integers starting at zero with no
gaps and the graph has exactly one node with no incoming edges and exactly
one node with no outgoing edges; on every other graph it fails fatally at
the start. -/
theorem C6_validate_prologue_iff (g : SGraph) :
    validate_prologue g = true ↔
      (g.nodes.map (fun p => p.1) = List.range g.nodes.length ∧
        g.edges.map (fun p => p.1) = List.range g.edges.length ∧
        (∃! n, n ∈ g.nodes.map (fun p => p.1) ∧
          ∀ e ∈ g.edges, e.2.2.1 ≠ n) ∧
        (∃! n, n ∈ g.nodes.map (fun p => p.1) ∧
          ∀ e ∈ g.edges, e.2.1 ≠ n)) := by
  have hnodes : nodesDenseOk g = true
      ↔ g.nodes.map (fun p => p.1) = List.range g.nodes.length := by
    rw [nodesDenseOk, List.enum_eq_enumFrom, List.range_eq_range']
    exact dense_enum_iff g.nodes 0
  have hedges : edgesDenseOk g = true
      ↔ g.edges.map (fun p => p.1) = List.range g.edges.length := by
    rw [edgesDenseOk, List.enum_eq_enumFrom, List.range_eq_range']
    exact dense_enum_iff g.edges 0
  have hinPred : ∀ n : ℕ,
      (g.edges.all (fun e => decide (e.2.2.1 ≠ n)) = true
        ↔ ∀ e ∈ g.edges, e.2.2.1 ≠ n) := by
    intro n
    simp [List.all_eq_true]
  have houtPred : ∀ n : ℕ,
      (g.edges.all (fun e => decide (e.2.1 ≠ n)) = true
        ↔ ∀ e ∈ g.edges, e.2.1 ≠ n) := by
    intro n
    simp [List.all_eq_true]
  constructor
  · intro h
    simp only [validate_prologue, Bool.and_eq_true] at h
    obtain ⟨⟨⟨hn, he⟩, hin⟩, hout⟩ := h
    have hdn := hnodes.mp hn
    have hnd : (g.nodes.map (fun p => p.1)).Nodup := by
      rw [hdn]
      exact List.nodup_range _
    refine ⟨hdn, hedges.mp he, ?_, ?_⟩
    · have h1 := (exactlyOne_isSome_iff _).mp hin
      rw [externalsIncoming] at h1
      have h2 := (nodup_filter_length_one _ _ hnd).mp h1
      exact (existsUnique_congr (fun n => and_congr_right
        (fun _ => hinPred n))).mp h2
    · have h1 := (exactlyOne_isSome_iff _).mp hout
      rw [externalsOutgoing] at h1
      have h2 := (nodup_filter_length_one _ _ hnd).mp h1
      exact (existsUnique_congr (fun n => and_congr_right
        (fun _ => houtPred n))).mp h2
  · rintro ⟨hdn, hde, hin, hout⟩
    have hnd : (g.nodes.map (fun p => p.1)).Nodup := by
      rw [hdn]
      exact List.nodup_range _
    simp only [validate_prologue, Bool.and_eq_true]
    refine ⟨⟨⟨hnodes.mpr hdn, hedges.mpr hde⟩, ?_⟩, ?_⟩
    · rw [exactlyOne_isSome_iff, externalsIncoming,
        nodup_filter_length_one _ _ hnd]
      exact (existsUnique_congr (fun n => and_congr_right
        (fun _ => hinPred n))).mpr hin
    · rw [exactlyOne_isSome_iff, externalsOutgoing,
        nodup_filter_length_one _ _ hnd]
      exact (existsUnique_congr (fun n => and_congr_right
        (fun _ => houtPred n))).mpr hout

/-- Membership in `edge_references()` of a dense graph is exactly a
successful indexed lookup. -/
theorem OGraph.mem_edgeRefs_orig (g : OGraph) (e : ERef Edge) :
    e ∈ g.edgeRefs ↔ g.edges.get? e.id = some (e.source, e.target, e.weight) := by
  rw [OGraph.edgeRefs]
  constructor
  · intro h
    obtain ⟨p, hp, hfe⟩ := List.mem_map.mp h
    have hget := List.mem_enum_iff_get?.mp hp
    cases hfe
    exact hget
  · intro h
    refine List.mem_map.mpr ⟨(e.id, (e.source, e.target, e.weight)), ?_, rfl⟩
    exact List.mem_enum_iff_get?.mpr h

/-- Indexed lookup into the edge list of a `value_graph` snapshot. -/
theorem value_graph_get (g : OGraph) (vals : VarRef → ℚ) (edges : VarRefs)
    (i : ℕ) :
    (value_graph g vals edges).edges.get? i =
      (g.edges.get? i).map (fun q =>
        (q.1, q.2.1,
          if vals (edges.get i) > EPS then some (vals (edges.get i)) else none)) := by
  rw [value_graph]
  dsimp only
  rw [List.get?_map, List.enum_get?]
  cases hg : g.edges.get? i with
  | none => simp
  | some q => simp

/-- Membership among the present edges of a value-graph is exactly a
successful indexed lookup returning a present slot. -/
theorem VGraph.mem_edgeRefs_value (vg : VGraph) (e : ERef ℚ) :
    e ∈ vg.edgeRefs
      ↔ vg.edges.get? e.id = some (e.source, e.target, some e.weight) := by
  rw [VGraph.edgeRefs]
  constructor
  · intro h
    obtain ⟨p, hp, hfe⟩ := List.mem_filterMap.mp h
    obtain ⟨w, hw, hfw⟩ := Option.map_eq_some'.mp hfe
    cases hfw
    have hget := List.mem_enum_iff_get?.mp hp
    rw [← hw]
    exact hget
  · intro h
    exact List.mem_filterMap.mpr
      ⟨(e.id, (e.source, e.target, some e.weight)),
        List.mem_enum_iff_get?.mpr h, rfl⟩

/-- **C9.** For every graph and every solver state, the snapshot built by
`value_graph` retains every node of the original graph, contains an edge
exactly when the solver's current value for that edge's variable is
strictly greater than `EPS = 1e-6` (the kept edge carrying that value as
its weight and keeping the original endpoints), and the endpoint
consistency pass at the end of `value_graph` never panics. -/
theorem C9_value_graph_snapshot (g : OGraph) (vals : VarRef → ℚ)
    (edges : VarRefs) :
    (value_graph g vals edges).nodes = g.nodes ∧
    (value_graph g vals edges).edges.length = g.edges.length ∧
    (∀ e : ERef ℚ,
      e ∈ (value_graph g vals edges).edgeRefs ↔
        (vals (edges.get e.id) > EPS ∧ e.weight = vals (edges.get e.id) ∧
          ∃ w : Edge, g.edges.get? e.id = some (e.source, e.target, w))) ∧
    value_graph_check g (value_graph g vals edges) = true := by
  refine ⟨rfl, ?_, ?_, ?_⟩
  · simp [value_graph, List.enum_length]
  · intro e
    rw [VGraph.mem_edgeRefs_value, value_graph_get]
    cases hg : g.edges.get? e.id with
    | none => simp
    | some q =>
      by_cases hv : vals (edges.get e.id) > EPS
      · simp only [Option.map_some', Option.some_inj, if_pos hv, hv, true_and]
        constructor
        · intro hq
          have h1 : q.1 = e.source := (Prod.mk.injEq _ _ _ _ ▸ hq).1
          have h23 := (Prod.mk.injEq _ _ _ _ ▸ hq).2
          have h2 : q.2.1 = e.target := (Prod.mk.injEq _ _ _ _ ▸ h23).1
          have h3 : some (vals (edges.get e.id)) = some e.weight :=
            (Prod.mk.injEq _ _ _ _ ▸ h23).2
          refine ⟨(Option.some_inj.mp h3).symm, q.2.2, ?_⟩
          rw [← h1, ← h2]
        · rintro ⟨hw, w, hq⟩
          rw [hq]
          simp [hw]
      · simp only [Option.map_some', Option.some_inj, if_neg hv, hv,
          false_and, iff_false]
        intro hq
        have h23 := (Prod.mk.injEq _ _ _ _ ▸ hq).2
        have h3 : (none : Option ℚ) = some e.weight :=
          (Prod.mk.injEq _ _ _ _ ▸ h23).2
        cases h3
  · rw [value_graph_check, List.all_eq_true]
    intro e he
    have hge := (OGraph.mem_edgeRefs_orig g e).mp he
    have hvg := value_graph_get g vals edges e.id
    rw [hge] at hvg
    rw [List.get?_eq_getElem?] at hvg
    by_cases hv : vals (edges.get e.id) > EPS
    · rw [Option.map_some', if_pos hv] at hvg
      simp [VGraph.endpoints, hvg]
    · rw [Option.map_some', if_neg hv] at hvg
      simp [VGraph.endpoints, hvg]

/-- Summing the negations of mapped values negates the sum. -/
theorem sum_map_neg {α : Type} (l : List α) (f : α → ℚ) :
    (l.map (fun a => -f a)).sum = -((l.map f).sum) := by
  induction l with
  | nil => simp
  | cons a t ih => simp [ih, neg_add, add_comm]

/-- The left-hand side of a flow constraint evaluates to the outgoing sum
minus the incoming sum. -/
theorem flow_lhs (g : OGraph) (edges : VarRefs) (x : VarRef → ℚ) (n : ℕ) :
    Expr.lhs x
        { name := ""
          bounds := .free
          terms := (g.edgesIn n).map (fun e => ⟨edges.get e.id, -1⟩)
            ++ (g.edgesOut n).map (fun e => ⟨edges.get e.id, 1⟩) } =
      outSum g edges x n - inSum g edges x n := by
  rw [Expr.lhs]
  dsimp only
  rw [List.map_append, List.sum_append, List.map_map, List.map_map]
  have h1 : (Term.eval x ∘ fun e : ERef Edge => (⟨edges.get e.id, -1⟩ : Term))
      = fun e : ERef Edge => -(x (edges.get e.id)) := by
    funext e
    simp [Term.eval]
  have h2 : (Term.eval x ∘ fun e : ERef Edge => (⟨edges.get e.id, 1⟩ : Term))
      = fun e : ERef Edge => x (edges.get e.id) := by
    funext e
    simp [Term.eval]
  rw [h1, h2, sum_map_neg]
  rw [inSum, outSum]
  ring

/-- The left-hand side of a coefficient-one constraint over the incoming
edges evaluates to the incoming sum. -/
theorem ones_lhs (g : OGraph) (edges : VarRefs) (x : VarRef → ℚ) (n : ℕ) :
    Expr.lhs x
        { name := ""
          bounds := .free
          terms := (g.edgesIn n).map (fun e => ⟨edges.get e.id, 1⟩) } =
      inSum g edges x n := by
  rw [Expr.lhs]
  dsimp only
  rw [List.map_map]
  have h2 : (Term.eval x ∘ fun e : ERef Edge => (⟨edges.get e.id, 1⟩ : Term))
      = fun e : ERef Edge => x (edges.get e.id) := by
    funext e
    simp [Term.eval]
  rw [h2, inSum]

/-- **C2 (amended).** For every node the Problem Encoder adds one flow
constraint, and the constraint of node `i` is satisfied by an assignment
exactly when `sum(outgoing edge vars) − sum(incoming edge vars)` equals
`+1` at the entry node, `−1` at the goal node and `0` elsewhere (the
claim had the orientation reversed: the code emits incoming terms with
coefficient `−1` and outgoing terms with coefficient `+1`). -/
theorem C2_flow_exprs_semantics (g : OGraph) (edges : VarRefs)
    (first_node last_node : ℕ) (x : VarRef → ℚ) :
    (flow_exprs g edges first_node last_node).length = g.nodes.length ∧
    ∀ i ex, (flow_exprs g edges first_node last_node).get? i = some ex →
      (ex.sat x = true ↔
        outSum g edges x i - inSum g edges x i =
          (if i = first_node then 1 else if i = last_node then -1 else 0)) := by
  constructor
  · simp [flow_exprs, List.enum_length]
  · intro i ex hex
    rw [flow_exprs] at hex
    rw [List.get?_map, List.enum_get?] at hex
    cases hn : g.nodes.get? i with
    | none =>
      rw [hn] at hex
      cases hex
    | some node =>
      rw [hn] at hex
      have hx : ex =
          { name := node.name ++ "/flow"
            bounds := .fixed (if i = first_node then 1
              else if i = last_node then -1 else 0)
            terms := (g.edgesIn i).map (fun e => ⟨edges.get e.id, -1⟩)
              ++ (g.edgesOut i).map (fun e => ⟨edges.get e.id, 1⟩) } := by
        cases hex
        rfl
      rw [hx, Expr.sat, Bounds.check]
      have hl := flow_lhs g edges x i
      rw [Expr.lhs] at hl ⊢
      dsimp only at hl ⊢
      rw [hl]
      simp

/-- The concrete two-node graph `a → b` used to refute the claimed flow
orientation: one edge from the entry `0` to the goal `1`. -/
def cexNode (nm : String) : Node := ⟨nm, 0, 0, none, 0⟩

/-- A zero-displacement edge weight for counterexample graphs. -/
def cexEdge : Edge := ⟨⟨0, 0, 0⟩⟩

/-- Counterexample graph for C2. -/
def G2 : OGraph := ⟨[cexNode "a", cexNode "b"], [(0, 1, cexEdge)]⟩

/-- Variable block for `G2` (GLPK columns are 1-based). -/
def V2 : VarRefs := ⟨1, 1⟩

/-- The all-ones assignment. -/
def xOne : VarRef → ℚ := fun _ => 1

/-- **C2 (counterexample).** On the graph `a → b` with the single edge
selected, the flow constraint the code adds at the entry node is
satisfied, yet `sum(incoming) − sum(outgoing)` is `−1`, not the claimed
`+1`: the added constraint is not the claimed equation. -/
theorem C2_flow_exprs_counterexample :
    ((flow_exprs G2 V2 0 1).get? 0).map (Expr.sat xOne) = some true ∧
    ¬(inSum G2 V2 xOne 0 - outSum G2 V2 xOne 0 = 1) := by
  constructor
  · norm_num [flow_exprs, G2, V2, xOne, cexNode, cexEdge, OGraph.edgesIn,
      OGraph.edgesOut, OGraph.edgeRefs, Expr.sat, Expr.lhs, Term.eval,
      Bounds.check, VarRefs.get, List.enum_eq_enumFrom, List.enumFrom]
  · norm_num [inSum, outSum, G2, V2, xOne, OGraph.edgesIn, OGraph.edgesOut,
      OGraph.edgeRefs, VarRefs.get, List.enum_eq_enumFrom, List.enumFrom]

/-- The entry-node flow constraint of `G2` as the code builds it. -/
def flowG2entry : Expr :=
  { name := "a/flow", bounds := .fixed 1, terms := [⟨1, 1⟩] }

/-- Witness for C2: the amended theorem applied to the concrete graph
`G2` at its entry node. -/
theorem C2_flow_exprs_semantics_witness :
    (flow_exprs G2 V2 0 1).get? 0 = some flowG2entry ∧
    (flowG2entry.sat xOne = true ↔
      outSum G2 V2 xOne 0 - inSum G2 V2 xOne 0 = 1) := by
  refine ⟨by rfl, ?_⟩
  have h := (C2_flow_exprs_semantics G2 V2 0 1 xOne).2 0 flowG2entry (by rfl)
  simpa using h

/-- Filtering pairs on the first component and projecting commutes. -/
theorem filter_fst_map_fst {β : Type} (l : List (ℕ × β)) (q : ℕ → Bool) :
    (l.filter (fun p => q p.1)).map Prod.fst = (l.map Prod.fst).filter q := by
  induction l with
  | nil => rfl
  | cons a t ih =>
    by_cases h : q a.1
    · simp [List.filter_cons, h, ih]
    · simp [List.filter_cons, h, ih]

/-- **C4 (amended).** The Problem Encoder adds exactly one capacity
constraint per non-terminal node (one for each node id other than the
entry and the goal, and none for those two), and the constraint paired
with non-terminal node `n` is satisfied exactly when the sum of the
node's *incoming* edge variables is at most `1` (the claim's stated
outgoing-sum convention is not what `opt.rs` implements: `capacity_exprs`
sums `edges_directed(n, Incoming)`). -/
theorem C4_capacity_exprs_semantics (g : OGraph) (edges : VarRefs)
    (first_node last_node : ℕ) (x : VarRef → ℚ) :
    ((capacity_exprs g edges first_node last_node).length =
      ((List.range g.nodes.length).filter
        (fun n => decide (n ≠ first_node) && decide (n ≠ last_node))).length) ∧
    ∀ i ex, (capacity_exprs g edges first_node last_node).get? i = some ex →
      ∃ n, ((List.range g.nodes.length).filter
          (fun n => decide (n ≠ first_node) && decide (n ≠ last_node))).get? i
            = some n ∧
        n ≠ first_node ∧ n ≠ last_node ∧
        (ex.sat x = true ↔ inSum g edges x n ≤ 1) := by
  have hids : (g.nodes.enum.filter
        (fun p => decide (p.1 ≠ first_node) && decide (p.1 ≠ last_node))).map
          Prod.fst
      = (List.range g.nodes.length).filter
          (fun n => decide (n ≠ first_node) && decide (n ≠ last_node)) := by
    have h0 := filter_fst_map_fst g.nodes.enum
      (fun n => decide (n ≠ first_node) && decide (n ≠ last_node))
    rw [List.enum_map_fst] at h0
    exact h0
  constructor
  · rw [capacity_exprs, List.length_map, ← hids, List.length_map]
  · intro i ex hex
    rw [capacity_exprs, List.get?_map] at hex
    cases hp : (g.nodes.enum.filter
        (fun p => decide (p.1 ≠ first_node) && decide (p.1 ≠ last_node))).get? i
      with
    | none =>
      rw [hp] at hex
      cases hex
    | some p =>
      rw [hp] at hex
      refine ⟨p.1, ?_, ?_, ?_, ?_⟩
      · rw [← hids, List.get?_map, hp, Option.map_some']
      · have hmem : p ∈ g.nodes.enum.filter
            (fun p => decide (p.1 ≠ first_node) && decide (p.1 ≠ last_node)) :=
          List.get?_mem hp
        have := (List.mem_filter.mp hmem).2
        simp only [Bool.and_eq_true, decide_eq_true_eq] at this
        exact this.1
      · have hmem : p ∈ g.nodes.enum.filter
            (fun p => decide (p.1 ≠ first_node) && decide (p.1 ≠ last_node)) :=
          List.get?_mem hp
        have := (List.mem_filter.mp hmem).2
        simp only [Bool.and_eq_true, decide_eq_true_eq] at this
        exact this.2
      · have hx : ex =
            { name := p.2.name ++ "/capacity"
              bounds := .upper 1
              terms := (g.edgesIn p.1).map (fun e => ⟨edges.get e.id, 1⟩) } := by
          cases hex
          rfl
        rw [hx, Expr.sat, Bounds.check]
        have hl := ones_lhs g edges x p.1
        rw [Expr.lhs] at hl ⊢
        dsimp only at hl ⊢
        rw [hl]
        simp

/-- Counterexample graph for C4: entry `0`, goal `2`, two parallel edges
`0 → 1` and one edge `1 → 2`. -/
def G4 : OGraph :=
  ⟨[cexNode "a", cexNode "b", cexNode "c"],
    [(0, 1, cexEdge), (0, 1, cexEdge), (1, 2, cexEdge)]⟩

/-- Variable block for `G4`. -/
def V4 : VarRefs := ⟨1, 3⟩

/-- An assignment selecting both parallel edges into node `1` and not the
edge out of it (variable `3` is the edge `1 → 2`). -/
def x4 : VarRef → ℚ := fun v => if v = 3 then 0 else 1

/-- **C4 (counterexample).** On `G4` under `x4`, the single capacity
constraint the code adds for the non-terminal node `1` is violated (its
incoming sum is `2`), while the claimed outgoing-sum bound holds (the
outgoing sum is `0 ≤ 1`): the constraint the code adds is not the claimed
outgoing-sum bound. -/
theorem C4_capacity_exprs_counterexample :
    ((capacity_exprs G4 V4 0 2).get? 0).map (Expr.sat x4) = some false ∧
    outSum G4 V4 x4 1 ≤ 1 := by
  constructor
  · norm_num [capacity_exprs, G4, V4, x4, cexNode, cexEdge, OGraph.edgesIn,
      OGraph.edgesOut, OGraph.edgeRefs, Expr.sat, Expr.lhs, Term.eval,
      Bounds.check, VarRefs.get, List.enum_eq_enumFrom, List.enumFrom,
      List.filter_cons]
  · norm_num [outSum, G4, V4, x4, OGraph.edgesOut, OGraph.edgeRefs,
      VarRefs.get, List.enum_eq_enumFrom, List.enumFrom, List.filter_cons]

/-- The capacity constraint of `G4` at node `1` as the code builds it. -/
def capG4entry : Expr :=
  { name := "b/capacity", bounds := .upper 1, terms := [⟨1, 1⟩, ⟨2, 1⟩] }

/-- Witness for C4: the amended theorem applied to the concrete graph
`G4` at its unique non-terminal node. -/
theorem C4_capacity_exprs_semantics_witness :
    ∃ n, ((List.range G4.nodes.length).filter
        (fun n => decide (n ≠ 0) && decide (n ≠ 2))).get? 0 = some n ∧
      n ≠ 0 ∧ n ≠ 2 ∧
      (capG4entry.sat x4 = true ↔ inSum G4 V4 x4 n ≤ 1) :=
  (C4_capacity_exprs_semantics G4 V4 0 2 x4).2 0 capG4entry (by rfl)

/-- Two edge references with the same id in a dense graph coincide. -/
theorem OGraph.edgeRefs_id_inj (g : OGraph) {e f : ERef Edge}
    (he : e ∈ g.edgeRefs) (hf : f ∈ g.edgeRefs) (hid : e.id = f.id) :
    e = f := by
  have h1 := (OGraph.mem_edgeRefs_orig g e).mp he
  have h2 := (OGraph.mem_edgeRefs_orig g f).mp hf
  rw [← hid] at h2
  rw [h1] at h2
  cases e with
  | mk ei es et ew =>
    cases f with
    | mk fi fs ft fw =>
      simp_all

/-- Membership in the outgoing edges of a node. -/
theorem OGraph.mem_edgesOut (g : OGraph) (n : ℕ) (e : ERef Edge) :
    e ∈ g.edgesOut n ↔ e ∈ g.edgeRefs ∧ e.source = n := by
  rw [OGraph.edgesOut, List.mem_filter]
  simp

/-- The edge ids of a dense graph are duplicate-free. -/
theorem OGraph.edgeRefs_id_nodup (g : OGraph) :
    (g.edgeRefs.map (fun e => e.id)).Nodup := by
  have h : g.edgeRefs.map (fun e => e.id) = List.range g.edges.length := by
    rw [OGraph.edgeRefs, List.map_map]
    exact List.enum_map_fst g.edges
  rw [h]
  exact List.nodup_range g.edges.length

/-- The discovered node set of `get_connected_nodes` is duplicate-free
(it is a filtered id range). -/
theorem get_connected_nodes_nodup (values : VGraph) (first_node : ℕ) :
    (get_connected_nodes values first_node).1.Nodup := by
  rw [get_connected_nodes]
  exact (List.nodup_range values.nodes.length).filter _

/-- **C1.** Whenever the depth-first exploration of the snapshot from the
entry node accumulates strictly fewer bits than `required_bits`, the lazy
cut generator returns a constraint named by the discovered node set,
bounded below by `1`, whose terms are exactly the original-graph edges
from the discovered set into its complement, each with coefficient `1`
and no edge repeated; when the discovered bits reach `required_bits` it
returns no constraint. -/
theorem C1_lazy_required_bits_expr_spec (g : OGraph) (edges : VarRefs)
    (first_node : ℕ) (required_bits : ℤ) (values : VGraph) :
    match lazy_required_bits_expr g edges first_node required_bits values with
    | some ex =>
        (get_connected_nodes values first_node).2 < required_bits ∧
        ex.name = cutName (get_connected_nodes values first_node).1 ∧
        ex.bounds = .lower 1 ∧
        (∀ t : Term, t ∈ ex.terms ↔
          ∃ e ∈ g.edgeRefs,
            e.source ∈ (get_connected_nodes values first_node).1 ∧
            e.target ∉ (get_connected_nodes values first_node).1 ∧
            t = ⟨edges.get e.id, 1⟩) ∧
        (ex.terms.map Term.var).Nodup
    | none => required_bits ≤ (get_connected_nodes values first_node).2 := by
  rw [lazy_required_bits_expr]
  by_cases hlt : (get_connected_nodes values first_node).2 < required_bits
  · rw [if_pos hlt]
    refine ⟨hlt, rfl, rfl, ?_, ?_⟩
    · intro t
      constructor
      · intro ht
        obtain ⟨n, hn, htn⟩ := List.mem_flatMap.mp ht
        obtain ⟨e, hef, rfl⟩ := List.mem_map.mp htn
        obtain ⟨heo, hpred⟩ := List.mem_filter.mp hef
        obtain ⟨her, hsrc⟩ := (OGraph.mem_edgesOut g n e).mp heo
        refine ⟨e, her, ?_, ?_, rfl⟩
        · rw [hsrc]
          exact hn
        · simpa using hpred
      · rintro ⟨e, her, hsc, htc, rfl⟩
        refine List.mem_flatMap.mpr ⟨e.source, hsc, ?_⟩
        refine List.mem_map.mpr ⟨e, ?_, rfl⟩
        refine List.mem_filter.mpr ⟨(OGraph.mem_edgesOut g e.source e).mpr
          ⟨her, rfl⟩, ?_⟩
        simpa using htc
    · rw [List.map_flatMap]
      rw [List.nodup_flatMap]
      constructor
      · intro n hn
        rw [List.map_map]
        have hident : ((Term.var ∘ fun e : ERef Edge => (⟨edges.get e.id, 1⟩ : Term)))
            = (fun i : ℕ => edges.get i) ∘ (fun e : ERef Edge => e.id) := rfl
        rw [hident, ← List.map_map]
        refine List.Nodup.map (fun a b hab => ?_) ?_
        · exact Nat.add_left_cancel hab
        · refine List.Nodup.sublist (List.Sublist.map _ ?_)
            (OGraph.edgeRefs_id_nodup g)
          exact (List.filter_sublist _).trans (List.filter_sublist _)
      · have hnd := get_connected_nodes_nodup values first_node
        refine List.Pairwise.imp_of_mem ?_ hnd
        · intro n m hn hm hnm
          intro v hvn hvm
          obtain ⟨tn, htn, rfl⟩ := List.mem_map.mp hvn
          obtain ⟨vm, hvm2, hveq⟩ := List.mem_map.mp hvm
          obtain ⟨en, hen, rfl⟩ := List.mem_map.mp htn
          obtain ⟨em, hem, rfl⟩ := List.mem_map.mp hvm2
          obtain ⟨heno, _⟩ := List.mem_filter.mp hen
          obtain ⟨hemo, _⟩ := List.mem_filter.mp hem
          obtain ⟨henr, hensrc⟩ := (OGraph.mem_edgesOut g n en).mp heno
          obtain ⟨hemr, hemsrc⟩ := (OGraph.mem_edgesOut g m em).mp hemo
          have hid : en.id = em.id := Nat.add_left_cancel hveq.symm
          have := OGraph.edgeRefs_id_inj g henr hemr hid
          rw [← hensrc, ← hemsrc, this] at hnm
          exact hnm rfl
  · rw [if_neg hlt]
    exact le_of_not_lt hlt

/-- **C8.** Adding the lazy cut generated for a discovered node set twice
leaves the feasible region exactly as after the first addition (an
assignment satisfies the constraint list with the duplicate iff it
satisfies it without), and the cut is determined by the discovered node
set: any snapshot whose DFS discovers the same node set and bit sum
yields the identical (identically named) constraint. -/
theorem C8_lazy_cut_idempotent (g : OGraph) (edges : VarRefs)
    (first_node : ℕ) (required_bits : ℤ) (values values2 : VGraph)
    (es : List Expr) (x : VarRef → ℚ) (ex : Expr)
    (hex : lazy_required_bits_expr g edges first_node required_bits values
      = some ex) :
    satisfiesAll x (es ++ [ex, ex]) = satisfiesAll x (es ++ [ex]) ∧
    (get_connected_nodes values2 first_node
        = get_connected_nodes values first_node →
      lazy_required_bits_expr g edges first_node required_bits values2
        = some ex) := by
  constructor
  · simp [satisfiesAll, List.all_append, Bool.and_assoc, Bool.and_self]
  · intro hcn
    rw [lazy_required_bits_expr] at hex ⊢
    rw [hcn]
    exact hex

/-- The snapshot of `G2` in which no edge is selected. -/
def VW8 : VGraph := ⟨G2.nodes, [(0, 1, none)]⟩

/-- The cut the generator emits for that snapshot. -/
def cut8expr : Expr :=
  { name := "cut.[0]", bounds := .lower 1, terms := [⟨1, 1⟩] }

/-- Witness for C8: on the concrete snapshot `VW8` of `G2` with
`required_bits = 1` the generator fires, and adding its cut twice equals
adding it once. -/
theorem C8_lazy_cut_idempotent_witness :
    satisfiesAll xOne ([] ++ [cut8expr, cut8expr])
        = satisfiesAll xOne ([] ++ [cut8expr]) ∧
    lazy_required_bits_expr G2 V2 0 1 VW8 = some cut8expr :=
  have hex : lazy_required_bits_expr G2 V2 0 1 VW8 = some cut8expr := by rfl
  ⟨(C8_lazy_cut_idempotent G2 V2 0 1 VW8 VW8 [] xOne cut8expr hex).1, hex⟩

/-- The lexicographic preorder of the DP comparator: bits first, then
accumulated weight, both preferring larger. -/
def lexLe (a b : HState) : Prop :=
  a.bits < b.bits ∨ (a.bits = b.bits ∧ a.weight ≤ b.weight)

theorem lexLe_refl (a : HState) : lexLe a a := Or.inr ⟨rfl, le_refl _⟩

theorem lexLe_trans {a b c : HState} (hab : lexLe a b) (hbc : lexLe b c) :
    lexLe a c := by
  rcases hab with h1 | ⟨h1, w1⟩
  · rcases hbc with h2 | ⟨h2, w2⟩
    · exact Or.inl (h1.trans h2)
    · exact Or.inl (h2 ▸ h1)
  · rcases hbc with h2 | ⟨h2, w2⟩
    · exact Or.inl (h1 ▸ h2)
    · exact Or.inr ⟨h1.trans h2, w1.trans w2⟩

theorem lexLe_total (a b : HState) : lexLe a b ∨ lexLe b a := by
  rcases lt_trichotomy a.bits b.bits with h | h | h
  · exact Or.inl (Or.inl h)
  · rcases le_total a.weight b.weight with hw | hw
    · exact Or.inl (Or.inr ⟨h, hw⟩)
    · exact Or.inr (Or.inr ⟨h.symm, hw⟩)
  · exact Or.inr (Or.inl h)

/-- The fold of `max_by` returns a member of the list that every member
compares at most equal to. -/
theorem maxByState_spec (l : List HState) (s : HState)
    (h : maxByState l = some s) :
    s ∈ l ∧ ∀ t ∈ l, lexLe t s := by
  match l with
  | [] => cases h
  | x :: xs =>
    rw [maxByState] at h
    have key : ∀ (xs : List HState) (x : HState),
        (xs.foldl
          (fun acc y =>
            if acc.bits < y.bits ∨ (acc.bits = y.bits ∧ acc.weight ≤ y.weight)
            then y else acc) x) ∈ x :: xs ∧
        lexLe x (xs.foldl
          (fun acc y =>
            if acc.bits < y.bits ∨ (acc.bits = y.bits ∧ acc.weight ≤ y.weight)
            then y else acc) x) ∧
        ∀ t ∈ xs, lexLe t (xs.foldl
          (fun acc y =>
            if acc.bits < y.bits ∨ (acc.bits = y.bits ∧ acc.weight ≤ y.weight)
            then y else acc) x) := by
      intro xs
      induction xs with
      | nil => exact fun x => ⟨List.mem_singleton_self x, lexLe_refl x, by simp⟩
      | cons y ys ih =>
        intro x
        rw [List.foldl_cons]
        by_cases hc : x.bits < y.bits ∨ (x.bits = y.bits ∧ x.weight ≤ y.weight)
        · rw [if_pos hc]
          obtain ⟨hmem, hbase, hall⟩ := ih y
          refine ⟨?_, lexLe_trans hc hbase, ?_⟩
          · rcases List.mem_cons.mp hmem with hm | hm
            · exact List.mem_cons.mpr (Or.inr (List.mem_cons.mpr (Or.inl hm)))
            · exact List.mem_cons.mpr (Or.inr (List.mem_cons.mpr (Or.inr hm)))
          · intro t ht
            rcases List.mem_cons.mp ht with rfl | ht2
            · exact hbase
            · exact hall t ht2
        · rw [if_neg hc]
          obtain ⟨hmem, hbase, hall⟩ := ih x
          have hyx : lexLe y x := by
            rcases lexLe_total x y with hxy | hyx
            · exact absurd hxy hc
            · exact hyx
          refine ⟨?_, hbase, ?_⟩
          · rcases List.mem_cons.mp hmem with hm | hm
            · exact List.mem_cons.mpr (Or.inl hm)
            · exact List.mem_cons.mpr (Or.inr (List.mem_cons.mpr (Or.inr hm)))
          · intro t ht
            rcases List.mem_cons.mp ht with rfl | ht2
            · exact lexLe_trans hyx hbase
            · exact hall t ht2
    obtain ⟨hmem, hbase, hall⟩ := key xs x
    rw [Option.some_inj.mp h] at hmem hbase hall
    refine ⟨hmem, ?_⟩
    intro t ht
    rcases List.mem_cons.mp ht with rfl | ht2
    · exact hbase
    · exact hall t ht2

/-- Membership in the candidate list of a node. -/
theorem mem_candidates (values : VGraph) (sts : StateMap) (n : ℕ)
    (s : HState) :
    s ∈ candidates values sts n ↔
      ∃ e ∈ values.edgesOut n, ∃ next,
        lookupState sts e.target = some next ∧
        s = { edge := some e
              bits := values.nodeBits n + next.bits
              weight := e.weight + next.weight } := by
  simp only [candidates]
  rw [List.mem_filterMap]
  constructor
  · rintro ⟨e, he, hmap⟩
    obtain ⟨next, hnext, hs⟩ := Option.map_eq_some'.mp hmap
    exact ⟨e, he, next, hnext, hs.symm⟩
  · rintro ⟨e, he, next, hnext, hs⟩
    exact ⟨e, he, by rw [hnext, Option.map_some', ← hs]⟩

/-- **C3 (amended).** In the heuristic-path DP pass, for every state map
and node, the state the pass stores (the `max_by` result over the
outgoing edges whose target already has a state) is itself one of those
candidates and is a lexicographic maximum of them: every candidate has
strictly fewer accumulated bits, or equal bits and an accumulated weight
(the sum of the chain's edge values, the `State.weight` field the claim
calls accumulated time) *at most* that of the chosen state — on equal
bits the pass prefers the *larger* accumulated weight, not the smaller
one the claim states. -/
theorem C3_heuristic_choice (values : VGraph) (sts : StateMap) (n : ℕ)
    (s : HState) (h : maxByState (candidates values sts n) = some s) :
    s ∈ candidates values sts n ∧
    (∀ t ∈ candidates values sts n,
      t.bits < s.bits ∨ (t.bits = s.bits ∧ t.weight ≤ s.weight)) ∧
    ∃ e ∈ values.edgesOut n, s.edge = some e ∧
      (lookupState sts e.target).isSome := by
  obtain ⟨hmem, hall⟩ := maxByState_spec _ s h
  refine ⟨hmem, hall, ?_⟩
  obtain ⟨e, he, next, hnext, hs⟩ := (mem_candidates values sts n s).mp hmem
  refine ⟨e, he, ?_, ?_⟩
  · rw [hs]
  · rw [hnext]
    rfl

/-- A four-node snapshot refuting the claimed tie-break direction: two
chains from the entry `0` to the goal `3`, one through `1` with edge
values `1/2`, one through `2` with edge values `1/4`; no node yields
bits, so the accumulated bits of both candidate chains are equal. -/
def VC3 : VGraph :=
  ⟨[cexNode "s", cexNode "p", cexNode "q", cexNode "t"],
    [(0, 1, some (1/2)), (0, 2, some (1/4)),
      (1, 3, some (1/2)), (2, 3, some (1/4))]⟩

/-- **C3 (counterexample).** On `VC3` the DP pass stores at the entry
node the state following edge id `0` with accumulated weight `1`, even
though the candidate through edge id `1` has equal accumulated bits and
strictly smaller accumulated weight `1/2`: the pass does not choose the
ascending (smaller-is-better) optimum the claim states. -/
theorem C3_heuristic_choice_counterexample :
    lookupState (heuristic_path VC3 0 3) 0 =
      some { edge := some ⟨0, 0, 1, 1/2⟩, bits := 0, weight := 1 } ∧
    ({ edge := some (⟨1, 0, 2, (1/4 : ℚ)⟩ : ERef ℚ), bits := 0, weight := 1/2 }
        : HState)
      ∈ candidates VC3 (heuristic_path VC3 0 3).tail 0 ∧
    ((1 : ℚ)/2 < 1) := by
  refine ⟨?_, ?_, by norm_num⟩
  · norm_num [heuristic_path, postOrder, postOrderAux, processNode,
      candidates, maxByState, lookupState, VGraph.adj, VGraph.edgesOut,
      VGraph.edgeRefs, VGraph.nodeBits, VC3, cexNode,
      List.enum_eq_enumFrom, List.enumFrom, List.filter_cons,
      HState.default, List.find?_cons, List.filterMap_cons,
      List.foldl_cons, List.foldl_nil]
  · norm_num [heuristic_path, postOrder, postOrderAux, processNode,
      candidates, maxByState, lookupState, VGraph.adj, VGraph.edgesOut,
      VGraph.edgeRefs, VGraph.nodeBits, VC3, cexNode,
      List.enum_eq_enumFrom, List.enumFrom, List.filter_cons,
      HState.default, List.find?_cons, List.filterMap_cons,
      List.foldl_cons, List.foldl_nil]

/-- Witness for C3: the amended theorem applied on `VC3` at the entry
node with the state map the pass had built before processing it. -/
theorem C3_heuristic_choice_witness :
    ({ edge := some (⟨0, 0, 1, (1/2 : ℚ)⟩ : ERef ℚ), bits := 0, weight := 1 }
        : HState)
      ∈ candidates VC3 (heuristic_path VC3 0 3).tail 0 :=
  (C3_heuristic_choice VC3 (heuristic_path VC3 0 3).tail 0
    { edge := some (⟨0, 0, 1, (1/2 : ℚ)⟩ : ERef ℚ), bits := 0, weight := 1 }
    (by norm_num [heuristic_path, postOrder, postOrderAux, processNode,
      candidates, maxByState, lookupState, VGraph.adj, VGraph.edgesOut,
      VGraph.edgeRefs, VGraph.nodeBits, VC3, cexNode,
      List.enum_eq_enumFrom, List.enumFrom, List.filter_cons,
      HState.default, List.find?_cons, List.filterMap_cons,
      List.foldl_cons, List.foldl_nil])).1

/-- Well-formedness of the state map built by the DP pass: keys are
duplicate-free and every stored edge points at a node whose state was
inserted strictly earlier (further toward the tail). -/
def StatesWF : StateMap → Prop
  | [] => True
  | p :: rest =>
    (∀ q ∈ rest, q.1 ≠ p.1) ∧
    (∀ e, p.2.edge = some e → (lookupState rest e.target).isSome = true) ∧
    StatesWF rest

theorem chainNodes_zero (sts : StateMap) (n : ℕ) :
    chainNodes sts 0 n = [n] := rfl

theorem chainNodes_succ_some {sts : StateMap} {n : ℕ} {e : ERef ℚ}
    (fuel : ℕ) (h : nextEdge sts n = some e) :
    chainNodes sts (fuel + 1) n = n :: chainNodes sts fuel e.target := by
  rw [chainNodes, h]

theorem chainNodes_succ_none {sts : StateMap} {n : ℕ}
    (fuel : ℕ) (h : nextEdge sts n = none) :
    chainNodes sts (fuel + 1) n = [n] := by
  rw [chainNodes, h]

theorem chainEdges_zero (sts : StateMap) (n : ℕ) :
    chainEdges sts 0 n = [] := rfl

theorem chainEdges_succ_some {sts : StateMap} {n : ℕ} {e : ERef ℚ}
    (fuel : ℕ) (h : nextEdge sts n = some e) :
    chainEdges sts (fuel + 1) n = e :: chainEdges sts fuel e.target := by
  rw [chainEdges, h]

theorem chainEdges_succ_none {sts : StateMap} {n : ℕ}
    (fuel : ℕ) (h : nextEdge sts n = none) :
    chainEdges sts (fuel + 1) n = [] := by
  rw [chainEdges, h]

theorem lookupState_cons_ne (p : ℕ × HState) (rest : StateMap) (m : ℕ)
    (h : ¬m = p.1) :
    lookupState (p :: rest) m = lookupState rest m := by
  rw [lookupState, lookupState, List.find?_cons_of_neg]
  simp
  exact fun hc => h hc.symm

theorem lookupState_isSome_iff (sts : StateMap) (m : ℕ) :
    (lookupState sts m).isSome = true ↔ ∃ q ∈ sts, q.1 = m := by
  simp [lookupState, List.find?_isSome]

theorem lookupState_cons_isSome (p : ℕ × HState) (rest : StateMap) (m : ℕ)
    (h : (lookupState rest m).isSome = true) :
    (lookupState (p :: rest) m).isSome = true := by
  by_cases hm : m = p.1
  · rw [lookupState, List.find?_cons_of_pos]
    · rfl
    · simp [hm]
  · rw [lookupState_cons_ne p rest m hm]
    exact h

theorem statesWF_key_ne_head {p : ℕ × HState} {rest : StateMap}
    (hfresh : ∀ q ∈ rest, q.1 ≠ p.1) {m : ℕ}
    (hm : (lookupState rest m).isSome = true) : ¬m = p.1 := by
  obtain ⟨q, hq, hqm⟩ := (lookupState_isSome_iff rest m).mp hm
  rw [← hqm]
  exact hfresh q hq

theorem statesWF_lookup_target {sts : StateMap} (h : StatesWF sts)
    {m : ℕ} {st : HState} {e : ERef ℚ}
    (hm : lookupState sts m = some st) (he : st.edge = some e) :
    (lookupState sts e.target).isSome = true := by
  induction sts with
  | nil => cases hm
  | cons p rest ih =>
    obtain ⟨hfresh, hpt, hrest⟩ := h
    by_cases hmp : m = p.1
    · have hst : st = p.2 := by
        rw [lookupState, List.find?_cons_of_pos] at hm
        · exact (Option.some_inj.mp hm).symm
        · simp [hmp]
      exact lookupState_cons_isSome p rest e.target (hpt e (hst ▸ he))
    · rw [lookupState_cons_ne p rest m hmp] at hm
      exact lookupState_cons_isSome p rest e.target (ih hrest hm)

theorem nextEdge_eq_some {sts : StateMap} {m : ℕ} {e : ERef ℚ}
    (h : nextEdge sts m = some e) :
    ∃ st, lookupState sts m = some st ∧ st.edge = some e := by
  rw [nextEdge] at h
  cases hl : lookupState sts m with
  | none => rw [hl] at h; cases h
  | some st => rw [hl] at h; exact ⟨st, rfl, h⟩

theorem nextEdge_target_isSome {sts : StateMap} (hwf : StatesWF sts)
    {m : ℕ} {e : ERef ℚ} (h : nextEdge sts m = some e) :
    (lookupState sts e.target).isSome = true := by
  obtain ⟨st, hl, he⟩ := nextEdge_eq_some h
  exact statesWF_lookup_target hwf hl he

theorem chain_cons_eq {p : ℕ × HState} {rest : StateMap}
    (hfresh : ∀ q ∈ rest, q.1 ≠ p.1) (hwf : StatesWF rest) :
    ∀ fuel m, ¬m = p.1 →
      chainNodes (p :: rest) fuel m = chainNodes rest fuel m := by
  intro fuel
  induction fuel with
  | zero => intro m hm; rfl
  | succ f ih =>
    intro m hm
    have hne : nextEdge (p :: rest) m = nextEdge rest m := by
      rw [nextEdge, nextEdge, lookupState_cons_ne p rest m hm]
    cases hE : nextEdge rest m with
    | none =>
      rw [chainNodes_succ_none f (hne.trans hE), chainNodes_succ_none f hE]
    | some e =>
      have ht := nextEdge_target_isSome hwf hE
      rw [chainNodes_succ_some f (hne.trans hE), chainNodes_succ_some f hE,
        ih e.target (statesWF_key_ne_head hfresh ht)]

theorem chainEdges_cons_eq {p : ℕ × HState} {rest : StateMap}
    (hfresh : ∀ q ∈ rest, q.1 ≠ p.1) (hwf : StatesWF rest) :
    ∀ fuel m, ¬m = p.1 →
      chainEdges (p :: rest) fuel m = chainEdges rest fuel m := by
  intro fuel
  induction fuel with
  | zero => intro m hm; rfl
  | succ f ih =>
    intro m hm
    have hne : nextEdge (p :: rest) m = nextEdge rest m := by
      rw [nextEdge, nextEdge, lookupState_cons_ne p rest m hm]
    cases hE : nextEdge rest m with
    | none =>
      rw [chainEdges_succ_none f (hne.trans hE), chainEdges_succ_none f hE]
    | some e =>
      have ht := nextEdge_target_isSome hwf hE
      rw [chainEdges_succ_some f (hne.trans hE), chainEdges_succ_some f hE,
        ih e.target (statesWF_key_ne_head hfresh ht)]

theorem chain_mem {sts : StateMap} (hwf : StatesWF sts) :
    ∀ fuel m x, x ∈ chainNodes sts fuel m →
      x = m ∨ (lookupState sts x).isSome = true := by
  intro fuel
  induction fuel with
  | zero =>
    intro m x hx
    rw [chainNodes_zero] at hx
    exact Or.inl (List.mem_singleton.mp hx)
  | succ f ih =>
    intro m x hx
    cases hE : nextEdge sts m with
    | none =>
      rw [chainNodes_succ_none f hE] at hx
      exact Or.inl (List.mem_singleton.mp hx)
    | some e =>
      rw [chainNodes_succ_some f hE] at hx
      rcases List.mem_cons.mp hx with rfl | hx2
      · exact Or.inl rfl
      · rcases ih e.target x hx2 with rfl | hk
        · exact Or.inr (nextEdge_target_isSome hwf hE)
        · exact Or.inr hk

theorem chainNodes_ne_nil (sts : StateMap) (fuel : ℕ) (n : ℕ) :
    chainNodes sts fuel n ≠ [] := by
  cases fuel with
  | zero => simp [chainNodes_zero]
  | succ f =>
    cases hE : nextEdge sts n with
    | none => rw [chainNodes_succ_none f hE]; simp
    | some e => rw [chainNodes_succ_some f hE]; simp

theorem chainNodes_length_eq (sts : StateMap) :
    ∀ fuel n,
      (chainNodes sts fuel n).length = (chainEdges sts fuel n).length + 1 := by
  intro fuel
  induction fuel with
  | zero => intro n; rfl
  | succ f ih =>
    intro n
    cases hE : nextEdge sts n with
    | none =>
      rw [chainNodes_succ_none f hE, chainEdges_succ_none f hE]
      rfl
    | some e =>
      rw [chainNodes_succ_some f hE, chainEdges_succ_some f hE]
      simp [ih e.target]

theorem getLastD_mem_of_ne_nil {l : List ℕ} (h : l ≠ []) :
    l.getLastD 0 ∈ l := by
  rw [List.getLastD_eq_getLast?]
  cases hml : l.getLast? with
  | none => exact absurd (List.getLast?_eq_none_iff.mp hml) h
  | some y =>
    rw [Option.getD_some]
    exact List.mem_of_mem_getLast? hml

theorem getLastD_default_irrel {l : List ℕ} (h : l ≠ []) (d : ℕ) :
    l.getLastD d = l.getLastD 0 := by
  rw [List.getLastD_eq_getLast?, List.getLastD_eq_getLast?]
  cases hml : l.getLast? with
  | none => exact absurd (List.getLast?_eq_none_iff.mp hml) h
  | some y => rfl

theorem statesWF_chain (sts : StateMap) (hwf : StatesWF sts) :
    ∀ fuel, sts.length < fuel → ∀ n,
      (chainNodes sts fuel n).Nodup ∧
      nextEdge sts ((chainNodes sts fuel n).getLastD 0) = none ∧
      (chainNodes sts fuel n).length ≤ sts.length + 1 := by
  induction sts with
  | nil =>
    intro fuel hf n
    match fuel, hf with
    | f + 1, _ =>
      have hE : nextEdge ([] : StateMap) n = none := rfl
      rw [chainNodes_succ_none f hE]
      exact ⟨List.nodup_singleton n, hE, by simp⟩
  | cons p rest ih =>
    obtain ⟨hfresh, hpt, hwrest⟩ := hwf
    intro fuel hf n
    match fuel, hf with
    | f + 1, hf =>
      have hfr : rest.length < f := by
        simp only [List.length_cons] at hf
        omega
      by_cases hn : n = p.1
      · cases hE : nextEdge (p :: rest) n with
        | none =>
          rw [chainNodes_succ_none f hE]
          exact ⟨List.nodup_singleton n, hE, by simp⟩
        | some e =>
          have hlk : lookupState (p :: rest) n = some p.2 := by
            rw [lookupState, List.find?_cons_of_pos]
            · rfl
            · simp [hn]
          have hedge : p.2.edge = some e := by
            rw [nextEdge, hlk] at hE
            exact hE
          have htk : (lookupState rest e.target).isSome = true := hpt e hedge
          have htne : ¬e.target = p.1 := statesWF_key_ne_head hfresh htk
          have hsub : chainNodes (p :: rest) f e.target
              = chainNodes rest f e.target :=
            chain_cons_eq hfresh hwrest f e.target htne
          obtain ⟨hnd, hterm, hlen⟩ := ih hwrest f hfr e.target
          rw [chainNodes_succ_some f hE, hsub]
          have hsubne := chainNodes_ne_nil rest f e.target
          have hmem : ∀ x ∈ chainNodes rest f e.target, ¬x = p.1 := by
            intro x hx
            rcases chain_mem hwrest f e.target x hx with rfl | hk
            · exact htne
            · exact statesWF_key_ne_head hfresh hk
          refine ⟨?_, ?_, ?_⟩
          · rw [List.nodup_cons]
            refine ⟨?_, hnd⟩
            intro hmemn
            exact hmem n hmemn hn
          · rw [List.getLastD_cons, getLastD_default_irrel hsubne]
            have hlne : ¬(chainNodes rest f e.target).getLastD 0 = p.1 :=
              hmem _ (getLastD_mem_of_ne_nil hsubne)
            rw [nextEdge, lookupState_cons_ne p rest _ hlne, ← nextEdge]
            exact hterm
          · simp only [List.length_cons] at hlen ⊢
            omega
      · by_cases hsome : (lookupState rest n).isSome = true
        · have hchain : chainNodes (p :: rest) (f + 1) n
              = chainNodes rest (f + 1) n :=
            chain_cons_eq hfresh hwrest (f + 1) n hn
          obtain ⟨hnd, hterm, hlen⟩ := ih hwrest (f + 1)
            (Nat.lt_of_lt_of_le hfr (Nat.le_succ f)) n
          rw [hchain]
          have hsubne := chainNodes_ne_nil rest (f + 1) n
          have hmem : ∀ x ∈ chainNodes rest (f + 1) n, ¬x = p.1 := by
            intro x hx
            rcases chain_mem hwrest (f + 1) n x hx with rfl | hk
            · exact hn
            · exact statesWF_key_ne_head hfresh hk
          refine ⟨hnd, ?_, ?_⟩
          · have hlne : ¬(chainNodes rest (f + 1) n).getLastD 0 = p.1 :=
              hmem _ (getLastD_mem_of_ne_nil hsubne)
            rw [nextEdge, lookupState_cons_ne p rest _ hlne, ← nextEdge]
            exact hterm
          · simp only [List.length_cons]
            omega
        · have hE : nextEdge (p :: rest) n = none := by
            rw [nextEdge, lookupState_cons_ne p rest n hn]
            cases hl : lookupState rest n with
            | none => rfl
            | some st => rw [hl] at hsome; simp at hsome
          rw [chainNodes_succ_none f hE]
          exact ⟨List.nodup_singleton n, hE, by simp⟩


theorem postOrderAux_spec (values : VGraph) :
    ∀ fuel (visited : List ℕ) (n : ℕ),
      (∀ x ∈ visited, x ∈ (postOrderAux values fuel visited n).1) ∧
      (postOrderAux values fuel visited n).2.Nodup ∧
      (∀ x ∈ (postOrderAux values fuel visited n).2,
        x ∈ (postOrderAux values fuel visited n).1 ∧ x ∉ visited) := by
  intro fuel
  induction fuel with
  | zero =>
    intro visited n
    refine ⟨fun x hx => hx, List.nodup_nil, ?_⟩
    intro x hx
    cases hx
  | succ f ih =>
    intro visited n
    by_cases hv : n ∈ visited
    · rw [postOrderAux, if_pos hv]
      refine ⟨fun x hx => hx, List.nodup_nil, ?_⟩
      intro x hx
      cases hx
    · rw [postOrderAux, if_neg hv]
      dsimp only
      have key : ∀ (ts : List ℕ) (acc : List ℕ × List ℕ),
          (∀ x ∈ n :: visited, x ∈ acc.1) →
          acc.2.Nodup →
          (∀ x ∈ acc.2, x ∈ acc.1 ∧ x ∉ n :: visited) →
          (∀ x ∈ acc.1, x ∈ (ts.foldl
            (fun acc t =>
              let s := postOrderAux values f acc.1 t
              (s.1, acc.2 ++ s.2)) acc).1) ∧
          (ts.foldl (fun acc t =>
              let s := postOrderAux values f acc.1 t
              (s.1, acc.2 ++ s.2)) acc).2.Nodup ∧
          (∀ x ∈ (ts.foldl (fun acc t =>
              let s := postOrderAux values f acc.1 t
              (s.1, acc.2 ++ s.2)) acc).2,
            x ∈ (ts.foldl (fun acc t =>
              let s := postOrderAux values f acc.1 t
              (s.1, acc.2 ++ s.2)) acc).1 ∧ x ∉ n :: visited) := by
        intro ts
        induction ts with
        | nil =>
          intro acc hbase hnd helem
          exact ⟨fun x hx => hx, hnd, helem⟩
        | cons t ts2 ih2 =>
          intro acc hbase hnd helem
          rw [List.foldl_cons]
          obtain ⟨hmono, hsnd, hselem⟩ := ih acc.1 t
          have hbase2 : ∀ x ∈ n :: visited,
              x ∈ (postOrderAux values f acc.1 t).1 :=
            fun x hx => hmono x (hbase x hx)
          have hnd2 : (acc.2 ++ (postOrderAux values f acc.1 t).2).Nodup := by
            rw [List.nodup_append]
            refine ⟨hnd, hsnd, ?_⟩
            intro x hx hx2
            exact (hselem x hx2).2 ((helem x hx).1)
          have helem2 : ∀ x ∈ acc.2 ++ (postOrderAux values f acc.1 t).2,
              x ∈ (postOrderAux values f acc.1 t).1 ∧ x ∉ n :: visited := by
            intro x hx
            rcases List.mem_append.mp hx with hx1 | hx2
            · exact ⟨hmono x (helem x hx1).1, (helem x hx1).2⟩
            · exact ⟨(hselem x hx2).1,
                fun hc => (hselem x hx2).2 (hbase x hc)⟩
          obtain ⟨q1, q2, q3⟩ := ih2
            ((postOrderAux values f acc.1 t).1,
              acc.2 ++ (postOrderAux values f acc.1 t).2)
            hbase2 hnd2 helem2
          exact ⟨fun x hx => q1 x (hmono x hx), q2, q3⟩
      obtain ⟨k1, k2, k3⟩ := key (values.adj n) (n :: visited, [])
        (fun x hx => hx) List.nodup_nil (by intro x hx; cases hx)
      refine ⟨?_, ?_, ?_⟩
      · intro x hx
        exact k1 x (List.mem_cons.mpr (Or.inr hx))
      · rw [List.nodup_append]
        refine ⟨k2, List.nodup_singleton n, ?_⟩
        intro x hx hx2
        rw [List.mem_singleton] at hx2
        exact (k3 x hx).2 (hx2 ▸ List.mem_cons.mpr (Or.inl rfl))
      · intro x hx
        rcases List.mem_append.mp hx with hx1 | hx2
        · exact ⟨(k3 x hx1).1,
            fun hc => (k3 x hx1).2 (List.mem_cons.mpr (Or.inr hc))⟩
        · rw [List.mem_singleton] at hx2
          subst hx2
          exact ⟨k1 x (List.mem_cons.mpr (Or.inl rfl)), hv⟩

theorem postOrder_nodup (values : VGraph) (first : ℕ) :
    (postOrder values first).Nodup :=
  (postOrderAux_spec values _ [] first).2.1

theorem heuristic_fold_wf (values : VGraph) (last : ℕ)
    (hlast : values.edgesOut last = []) :
    ∀ (l : List ℕ) (sts : StateMap), l.Nodup → StatesWF sts →
      (∀ q ∈ sts, q.1 = last ∨ q.1 ∉ l) →
      StatesWF (l.foldl (processNode values) sts) := by
  intro l
  induction l with
  | nil => exact fun sts _ hwf _ => hwf
  | cons n rest ih =>
    intro sts hnd hwf hkeys
    rw [List.foldl_cons]
    rw [List.nodup_cons] at hnd
    by_cases hn : n = last
    · have hproc : processNode values sts n = sts := by
        rw [processNode, hn]
        have hcand : candidates values sts last = [] := by
          simp [candidates, hlast]
        rw [hcand]
        rfl
      rw [hproc]
      refine ih sts hnd.2 hwf ?_
      intro q hq
      rcases hkeys q hq with h1 | h1
      · exact Or.inl h1
      · exact Or.inr (fun hc => h1 (List.mem_cons.mpr (Or.inr hc)))
    · have hfresh : ∀ q ∈ sts, q.1 ≠ n := by
        intro q hq
        rcases hkeys q hq with h1 | h1
        · rw [h1]
          exact fun hc => hn hc.symm
        · exact fun hc => h1 (hc ▸ List.mem_cons.mpr (Or.inl rfl))
      cases hM : maxByState (candidates values sts n) with
      | none =>
        have hproc : processNode values sts n = sts := by
          rw [processNode, hM]
        rw [hproc]
        refine ih sts hnd.2 hwf ?_
        intro q hq
        rcases hkeys q hq with h1 | h1
        · exact Or.inl h1
        · exact Or.inr (fun hc => h1 (List.mem_cons.mpr (Or.inr hc)))
      | some s =>
        have hproc : processNode values sts n = (n, s) :: sts := by
          rw [processNode, hM]
        rw [hproc]
        have hsmem := (maxByState_spec _ s hM).1
        obtain ⟨e, he, next, hnext, hs⟩ := (mem_candidates values sts n s).mp hsmem
        refine ih ((n, s) :: sts) hnd.2 ⟨hfresh, ?_, hwf⟩ ?_
        · intro e2 he2
          have : e2 = e := by
            rw [hs] at he2
            exact Option.some_inj.mp he2.symm
          rw [this, hnext]
          rfl
        · intro q hq
          rcases List.mem_cons.mp hq with rfl | hq2
          · exact Or.inr hnd.1
          · rcases hkeys q hq2 with h1 | h1
            · exact Or.inl h1
            · exact Or.inr (fun hc => h1 (List.mem_cons.mpr (Or.inr hc)))

theorem heuristic_path_wf (values : VGraph) (first last : ℕ)
    (hlast : values.edgesOut last = []) :
    StatesWF (heuristic_path values first last) := by
  rw [heuristic_path]
  refine heuristic_fold_wf values last hlast (postOrder values first)
    [(last, HState.default)] (postOrder_nodup values first) ?_ ?_
  · refine ⟨by simp, ?_, trivial⟩
    intro e he
    cases he
  · intro q hq
    rw [List.mem_singleton] at hq
    rw [hq]
    exact Or.inl rfl

/-- **C10.** For every snapshot in which the goal node has no outgoing
edge (true of every Value Graph snapshot, since the validated graph's
goal node has none and the snapshot only removes edges), iterating
`HeuristicPathIter` from the entry node terminates after at most as many
edges as there are states: every stored edge points at a node whose state
was inserted strictly earlier, so the chain, cut at `|states| + 1` steps,
visits no node twice and its last node has no successor (the iterator
genuinely stops rather than being cut off). -/
theorem C10_heuristic_chain_terminates (values : VGraph) (first last : ℕ)
    (hlast : values.edgesOut last = []) :
    (chainNodes (heuristic_path values first last)
        ((heuristic_path values first last).length + 1) first).Nodup ∧
    nextEdge (heuristic_path values first last)
        ((chainNodes (heuristic_path values first last)
          ((heuristic_path values first last).length + 1) first).getLastD 0)
      = none ∧
    (chainEdges (heuristic_path values first last)
        ((heuristic_path values first last).length + 1) first).length
      ≤ (heuristic_path values first last).length := by
  have hwf := heuristic_path_wf values first last hlast
  obtain ⟨h1, h2, h3⟩ := statesWF_chain _ hwf
    ((heuristic_path values first last).length + 1) (by omega) first
  refine ⟨h1, h2, ?_⟩
  have hpl := chainNodes_length_eq (heuristic_path values first last)
    ((heuristic_path values first last).length + 1) first
  omega


/-- The fold of `min_by` returns a member of the list whose score no
member undercuts (ties keep the earlier element). -/
theorem minByScore_spec (l : List (ℕ × ℚ)) (p : ℕ × ℚ)
    (h : minByScore l = some p) :
    p ∈ l ∧ ∀ q ∈ l, p.2 ≤ q.2 := by
  match l with
  | [] => cases h
  | x :: xs =>
    rw [minByScore] at h
    have key : ∀ (xs : List (ℕ × ℚ)) (x : ℕ × ℚ),
        (xs.foldl (fun acc y => if acc.2 ≤ y.2 then acc else y) x) ∈ x :: xs ∧
        (xs.foldl (fun acc y => if acc.2 ≤ y.2 then acc else y) x).2 ≤ x.2 ∧
        ∀ q ∈ xs,
          (xs.foldl (fun acc y => if acc.2 ≤ y.2 then acc else y) x).2 ≤ q.2 := by
      intro xs
      induction xs with
      | nil => exact fun x => ⟨List.mem_singleton_self x, le_refl _, by simp⟩
      | cons y ys ih =>
        intro x
        rw [List.foldl_cons]
        by_cases hc : x.2 ≤ y.2
        · rw [if_pos hc]
          obtain ⟨hmem, hbase, hall⟩ := ih x
          refine ⟨?_, hbase, ?_⟩
          · rcases List.mem_cons.mp hmem with hm | hm
            · exact List.mem_cons.mpr (Or.inl hm)
            · exact List.mem_cons.mpr (Or.inr (List.mem_cons.mpr (Or.inr hm)))
          · intro q hq
            rcases List.mem_cons.mp hq with rfl | hq2
            · exact hbase.trans hc
            · exact hall q hq2
        · rw [if_neg hc]
          have hyx : y.2 ≤ x.2 := le_of_not_le hc
          obtain ⟨hmem, hbase, hall⟩ := ih y
          refine ⟨?_, hbase.trans hyx, ?_⟩
          · rcases List.mem_cons.mp hmem with hm | hm
            · exact List.mem_cons.mpr (Or.inr (List.mem_cons.mpr (Or.inl hm)))
            · exact List.mem_cons.mpr (Or.inr (List.mem_cons.mpr (Or.inr hm)))
          · intro q hq
            rcases List.mem_cons.mp hq with rfl | hq2
            · exact hbase
            · exact hall q hq2
    obtain ⟨hmem, hbase, hall⟩ := key xs x
    rw [Option.some_inj.mp h] at hmem hbase hall
    refine ⟨hmem, ?_⟩
    intro q hq
    rcases List.mem_cons.mp hq with rfl | hq2
    · exact hbase
    · exact hall q hq2

/-- **C5.** The branching callback considers exactly the edges on the
heuristic path from the entry node whose value `v` satisfies
`1 − v > EPS`; when at least one exists it returns the variable of an
edge of minimal score `|v − 0.5|` among them together with the branch-up
direction, and when none exists it returns no branching override. -/
theorem C5_get_branch_spec (values : VGraph) (edges : VarRefs)
    (first_node last_node : ℕ) :
    match get_branch values edges first_node last_node with
    | none =>
        (chainEdges (heuristic_path values first_node last_node)
          ((heuristic_path values first_node last_node).length + 1)
          first_node).filter (fun e => decide (1 - e.weight > EPS)) = []
    | some (v, b) =>
        b = Branch.up ∧
        ∃ e ∈ (chainEdges (heuristic_path values first_node last_node)
            ((heuristic_path values first_node last_node).length + 1)
            first_node).filter (fun e => decide (1 - e.weight > EPS)),
          v = edges.get e.id ∧
          ∀ e2 ∈ (chainEdges (heuristic_path values first_node last_node)
              ((heuristic_path values first_node last_node).length + 1)
              first_node).filter (fun e => decide (1 - e.weight > EPS)),
            |e.weight - 1/2| ≤ |e2.weight - 1/2| := by
  simp only [get_branch]
  cases hM : minByScore
      (((chainEdges (heuristic_path values first_node last_node)
          ((heuristic_path values first_node last_node).length + 1)
          first_node).filter (fun e => decide (1 - e.weight > EPS))).map
        (fun e => (e.id, |e.weight - 1/2|))) with
  | none =>
    rw [Option.map_none']
    cases hF : (chainEdges (heuristic_path values first_node last_node)
        ((heuristic_path values first_node last_node).length + 1)
        first_node).filter (fun e => decide (1 - e.weight > EPS)) with
    | nil => rfl
    | cons a t =>
      rw [hF, List.map_cons, minByScore] at hM
      cases hM
  | some p =>
    rw [Option.map_some']
    obtain ⟨hmem, hall⟩ := minByScore_spec _ p hM
    obtain ⟨e, he, hpe⟩ := List.mem_map.mp hmem
    refine ⟨rfl, e, he, ?_, ?_⟩
    · rw [← hpe]
    · intro e2 he2
      have hq := hall (e2.id, |e2.weight - 1/2|)
        (List.mem_map.mpr ⟨e2, he2, rfl⟩)
      rw [← hpe] at hq
      exact hq

/-- Every `value_graph` snapshot of a graph whose goal node has no
outgoing edges (the validated invariant) again has no outgoing edges at
the goal node, so the chain-termination theorem above applies to every
Value Graph snapshot the program builds. -/
theorem value_graph_edgesOut_nil (g : OGraph) (vals : VarRef → ℚ)
    (edges : VarRefs) (n : ℕ) (h : g.edgesOut n = []) :
    (value_graph g vals edges).edgesOut n = [] := by
  cases hE : (value_graph g vals edges).edgesOut n with
  | nil => rfl
  | cons a t =>
    exfalso
    have ha : a ∈ (value_graph g vals edges).edgesOut n := by
      rw [hE]
      exact List.mem_cons_self a t
    rw [VGraph.edgesOut, List.mem_filter] at ha
    obtain ⟨har, hsrc⟩ := ha
    have hget := (VGraph.mem_edgeRefs_value _ a).mp har
    rw [value_graph_get] at hget
    cases hg : g.edges.get? a.id with
    | none =>
      rw [hg] at hget
      cases hget
    | some q =>
      rw [hg, Option.map_some'] at hget
      have hq1 : q.1 = a.source := (Prod.mk.injEq _ _ _ _ ▸
        Option.some_inj.mp hget).1
      have horig : (⟨a.id, q.1, q.2.1, q.2.2⟩ : ERef Edge) ∈ g.edgesOut n := by
        rw [OGraph.edgesOut, List.mem_filter]
        refine ⟨(OGraph.mem_edgeRefs_orig g _).mpr (by rw [hg]), ?_⟩
        simp only [decide_eq_true_eq]
        rw [hq1]
        exact decide_eq_true_eq.mp hsrc
      rw [h] at horig
      cases horig

/-- Witness for C10: the theorem applied to the concrete snapshot `VC3`,
whose goal node `3` has no outgoing edges. -/
theorem C10_heuristic_chain_terminates_witness :
    (chainNodes (heuristic_path VC3 0 3)
        ((heuristic_path VC3 0 3).length + 1) 0).Nodup :=
  (C10_heuristic_chain_terminates VC3 0 3 (by rfl)).1

end FezRoute
